import Mathlib

/-!
Verification of the json_handling repository: a shallow embedding of
`specifier.py` (the path-specification interpreter with its `KEEP_ALL`,
`FLATTEN` and `UNPACK` tokens) and of `json_to_csv.py` (the selective
cartesian-product row expander `conditional_product` / `_curr_gen`),
together with proofs of the specification's testable properties.

Documents are JSON-like trees: scalars (strings, numbers, booleans,
null — atomic for extraction purposes), ordered sequences (Python
lists) and mappings with string keys (Python dicts obtained from
`json.load`).  Fallible Python operations are modelled in `Except`
over an error type naming the Python exception class raised.
-/

/-- A JSON document value: a scalar leaf (carrying its textual payload),
a sequence (Python list) or a mapping with string keys (Python dict),
represented as an association list in insertion order. -/
inductive Json where
  | scalar : String → Json
  | arr : List Json → Json
  | obj : List (String × Json) → Json
deriving Repr

/-- A key step of a specification tuple: a string name or an integer
index (Python integers, so negative indices are representable). -/
inductive Key where
  | name : String → Key
  | idx : Int → Key
deriving DecidableEq, Repr

/-- One step of a specifier tuple: either a plain key or one of the
three tokens from `Specifier.tokens` in `specifier.py`. -/
inductive Step where
  | key : Key → Step
  | KEEP_ALL : Step
  | FLATTEN : Step
  | UNPACK : Step

/-- The Python exception class raised by a modelled operation. -/
inductive PyError where
  | typeError
  | keyError
  | indexError
  | valueError
  | runtimeError
deriving DecidableEq, Repr

/-- Mapping lookup, as Python `d[name]` on a dict with string keys:
the value stored under the first matching key, if any. -/
def lookupKey (s : String) : List (String × Json) → Option Json
  | [] => none
  | kv :: rest => if kv.1 = s then some kv.2 else lookupKey s rest

/-- Translate a Python list index (which may be negative) for a list of
length `n` into an absolute position, or `none` when out of range. -/
def pyIndex (n : Nat) (i : Int) : Option Nat :=
  if 0 ≤ i ∧ i < (n : Int) then some i.toNat
  else if -(n : Int) ≤ i ∧ i < 0 then some ((n : Int) + i).toNat
  else none

/-- Python `xs[i]` on a list: the element at the (possibly negative)
index, or `IndexError` when the index is out of range. -/
def pyListGet (xs : List Json) (i : Int) : Except PyError Json :=
  match pyIndex xs.length i with
  | some m =>
    match xs[m]? with
    | some v => .ok v
    | none => .error .indexError
  | none => .error .indexError

/-- Python subscription `json[name]` as performed by `Specifier.apply`:
dict lookup by string (absent key raises `KeyError`, and an integer key
on a string-keyed dict also raises `KeyError`, a lookup error), list
indexing by integer (`IndexError` when out of range, `TypeError` for a
string key), and `TypeError` on scalar leaves, which are not
subscriptable. -/
def getItem (j : Json) (k : Key) : Except PyError Json :=
  match j, k with
  | .obj kvs, .name s =>
    match lookupKey s kvs with
    | some v => .ok v
    | none => .error .keyError
  | .obj _, .idx _ => .error .keyError
  | .arr xs, .idx i => pyListGet xs i
  | .arr _, .name _ => .error .typeError
  | .scalar _, _ => .error .typeError

/-- Python iteration `for v in json`: a list yields its elements, a
dict yields its keys, and a non-iterable scalar leaf raises
`TypeError`. -/
def pyIter : Json → Except PyError (List Json)
  | .arr xs => .ok xs
  | .obj kvs => .ok (kvs.map fun kv => Json.scalar kv.1)
  | .scalar _ => .error .typeError

/-- Recognizer for sequence values. -/
def Json.isArr : Json → Bool
  | .arr _ => true
  | _ => false

/-- The immediate elements of a sequence value (and `[]` on anything
else). -/
def Json.elts : Json → List Json
  | .arr xs => xs
  | _ => []

theorem lookupKey_sizeOf {s : String} {kvs : List (String × Json)} {v : Json}
    (h : lookupKey s kvs = some v) : sizeOf v < sizeOf kvs := by
  induction kvs with
  | nil => simp [lookupKey] at h
  | cons kv rest ih =>
    obtain ⟨k, w⟩ := kv
    simp only [lookupKey] at h
    split at h
    · cases h
      simp
      omega
    · have := ih h
      simp
      omega

theorem pyListGet_sizeOf {xs : List Json} {i : Int} {v : Json}
    (h : pyListGet xs i = .ok v) : sizeOf v < sizeOf xs := by
  unfold pyListGet at h
  split at h
  · split at h
    · cases h
      rename_i m hm w hget
      obtain ⟨hlt, hv⟩ := List.getElem?_eq_some.mp hget
      exact hv ▸ List.sizeOf_lt_of_mem (List.getElem_mem hlt)
    · cases h
  · cases h

theorem getItem_sizeOf {j : Json} {k : Key} {v : Json}
    (h : getItem j k = .ok v) : sizeOf v < sizeOf j := by
  cases j with
  | scalar s => simp [getItem] at h
  | arr xs =>
    cases k with
    | name s => simp [getItem] at h
    | idx i =>
      simp only [getItem] at h
      have := pyListGet_sizeOf h
      simp
      omega
  | obj kvs =>
    cases k with
    | idx i => simp [getItem] at h
    | name s =>
      simp only [getItem] at h
      split at h
      · cases h
        rename_i hl
        have := lookupKey_sizeOf hl
        simp
        omega
      · cases h

theorem pyIter_sizeOf {j : Json} {elts : List Json}
    (h : pyIter j = .ok elts) : sizeOf elts < sizeOf j := by
  cases j with
  | scalar s => simp [pyIter] at h
  | arr xs =>
    simp only [pyIter] at h
    cases h
    simp
  | obj kvs =>
    simp only [pyIter] at h
    cases h
    have : ∀ l : List (String × Json),
        sizeOf (l.map fun kv => Json.scalar kv.1) ≤ sizeOf l := by
      intro l
      induction l with
      | nil => simp
      | cons kv rest ih =>
        obtain ⟨k, w⟩ := kv
        simp
        omega
    have := this kvs
    simp
    omega

/-- The list flattener `Token.flatten` from `specifier.py`: on a list,
sum (left-fold of list concatenation, starting from the empty list) of
the recursively flattened elements; any non-list value is wrapped in a
singleton list.  Only lists are flattened; scalars and dicts are kept
as leaves. -/
def Token.flatten (v : Json) : List Json :=
  match v with
  | .arr xs => (xs.attach.map fun x => Token.flatten x.1).foldl (· ++ ·) []
  | v => [v]
decreasing_by
  have := List.sizeOf_lt_of_mem x.2
  simp
  omega

/-- Python `sum(lists, start=acc)` over the elements of a list, where
the accumulator is a list: adds each element to the accumulator in
order and raises `TypeError` at the first element that is not a list
(lists cannot be added to non-lists). -/
def pySum : List Json → List Json → Except PyError (List Json)
  | [], acc => .ok acc
  | x :: xs, acc =>
    match x with
    | .arr ys => pySum xs (acc ++ ys)
    | _ => .error .typeError

/-- `Token.unpack` from `specifier.py`: `sum(lists, start=[])`, and on
any `TypeError` the input is returned unchanged.  On a list of lists
this concatenates the two outermost layers; a list with a non-list
element, a dict (whose iteration yields string keys, which cannot be
added to a list) and a non-iterable scalar all fall into the
`TypeError` branch and are returned unchanged. -/
def Token.unpack (v : Json) : Json :=
  match v with
  | .arr xs =>
    match pySum xs [] with
    | .ok res => .arr res
    | .error _ => .arr xs
  | v => v

mutual

/-- `Specifier.apply` from `specifier.py`.  An empty specifier tuple
returns the document unchanged.  A token head reshapes the result of
applying the remaining specifier: `KEEP_ALL` applies the rest to every
element of the document, `FLATTEN` flattens the result of the rest,
`UNPACK` unpacks it.  A key head first tries plain subscription: on
success the rest of the specifier is applied to the indexed value; on
`TypeError` the entire specifier (current key included) is applied to
every element of the document; `KeyError` and `IndexError` are not
caught and propagate. -/
def Specifier.apply (spec : List Step) (j : Json) : Except PyError Json :=
  match spec with
  | [] => .ok j
  | .KEEP_ALL :: rest =>
    match h : pyIter j with
    | .ok elts =>
      match applyList rest elts with
      | .ok rs => .ok (.arr rs)
      | .error e => .error e
    | .error e => .error e
  | .FLATTEN :: rest =>
    match Specifier.apply rest j with
    | .ok v => .ok (.arr (Token.flatten v))
    | .error e => .error e
  | .UNPACK :: rest =>
    match Specifier.apply rest j with
    | .ok v => .ok (Token.unpack v)
    | .error e => .error e
  | .key k :: rest =>
    match hg : getItem j k with
    | .ok v => Specifier.apply rest v
    | .error .typeError =>
      match h : pyIter j with
      | .ok elts =>
        match applyList (.key k :: rest) elts with
        | .ok rs => .ok (.arr rs)
        | .error e => .error e
      | .error e => .error e
    | .error e => .error e
termination_by (sizeOf j, spec.length)
decreasing_by
  · exact Prod.Lex.left _ _ (pyIter_sizeOf h)
  · exact Prod.Lex.right _ (by simp)
  · exact Prod.Lex.right _ (by simp)
  · exact Prod.Lex.left _ _ (getItem_sizeOf hg)
  · exact Prod.Lex.left _ _ (pyIter_sizeOf h)

/-- The list comprehension `[spec.apply(v) for v in json]` used for
token and broadcast application: applies the specifier to each element
in order, propagating the first error. -/
def applyList (spec : List Step) (l : List Json) : Except PyError (List Json) :=
  match l with
  | [] => .ok []
  | x :: xs =>
    match Specifier.apply spec x with
    | .ok r =>
      match applyList spec xs with
      | .ok rs => .ok (r :: rs)
      | .error e => .error e
    | .error e => .error e
termination_by (sizeOf l, spec.length)
decreasing_by
  · exact Prod.Lex.left _ _ (by simp only [List.cons.sizeOf_spec]; omega)
  · exact Prod.Lex.left _ _ (by simp only [List.cons.sizeOf_spec]; omega)

end

theorem apply_nil (j : Json) : Specifier.apply [] j = .ok j := by
  simp [Specifier.apply]

theorem apply_key_ok {j : Json} {k : Key} {v : Json} (rest : List Step)
    (h : getItem j k = .ok v) :
    Specifier.apply (.key k :: rest) j = Specifier.apply rest v := by
  rw [Specifier.apply]
  split <;> simp_all

theorem apply_key_typeError {j : Json} {k : Key} {elts : List Json} (rest : List Step)
    (hg : getItem j k = .error .typeError) (hi : pyIter j = .ok elts) :
    Specifier.apply (.key k :: rest) j = (applyList (.key k :: rest) elts).map Json.arr := by
  rw [Specifier.apply]
  split <;> simp_all
  split <;> simp_all
  cases applyList (Step.key k :: rest) elts <;> simp [Except.map]

theorem apply_key_lookupErr {j : Json} {k : Key} {e : PyError} (rest : List Step)
    (hg : getItem j k = .error e) (hne : e ≠ .typeError) :
    Specifier.apply (.key k :: rest) j = .error e := by
  rw [Specifier.apply]
  split <;> simp_all

theorem apply_flatten (rest : List Step) (j : Json) :
    Specifier.apply (.FLATTEN :: rest) j
      = (Specifier.apply rest j).map (fun v => Json.arr (Token.flatten v)) := by
  rw [Specifier.apply]
  cases Specifier.apply rest j <;> simp [Except.map]

theorem apply_unpack (rest : List Step) (j : Json) :
    Specifier.apply (.UNPACK :: rest) j = (Specifier.apply rest j).map Token.unpack := by
  rw [Specifier.apply]
  cases Specifier.apply rest j <;> simp [Except.map]

theorem apply_keepall {j : Json} {elts : List Json} (rest : List Step)
    (hi : pyIter j = .ok elts) :
    Specifier.apply (.KEEP_ALL :: rest) j = (applyList rest elts).map Json.arr := by
  rw [Specifier.apply]
  split <;> simp_all
  cases applyList rest elts <;> simp [Except.map]

theorem foldl_append_eq_flatten {α : Type} (ls : List (List α)) (acc : List α) :
    ls.foldl (· ++ ·) acc = acc ++ ls.flatten := by
  induction ls generalizing acc with
  | nil => simp
  | cons l ls ih => simp [List.foldl_cons, ih, List.append_assoc]

theorem flatten_arr (xs : List Json) :
    Token.flatten (.arr xs) = (xs.map Token.flatten).flatten := by
  rw [Token.flatten]
  rw [show (xs.attach.map fun x => Token.flatten x.1)
        = (xs.attach.map Subtype.val).map Token.flatten by rw [List.map_map]; rfl]
  rw [List.attach_map_subtype_val, foldl_append_eq_flatten]
  simp

theorem flatten_not_arr {v : Json} (h : v.isArr = false) : Token.flatten v = [v] := by
  cases v with
  | arr xs => simp [Json.isArr] at h
  | scalar s => simp [Token.flatten]
  | obj kvs => simp [Token.flatten]

/-- Induction over documents along membership in sequences and in
mapping values. -/
theorem Json.indOn {P : Json → Prop} (v : Json)
    (hs : ∀ s, P (.scalar s))
    (ho : ∀ kvs, (∀ kv ∈ kvs, P kv.2) → P (.obj kvs))
    (ha : ∀ xs, (∀ x ∈ xs, P x) → P (.arr xs)) : P v :=
  match v with
  | .scalar s => hs s
  | .obj kvs => ho kvs (fun kv hkv =>
      have : sizeOf kv.2 < 1 + sizeOf kvs := by
        have h1 := List.sizeOf_lt_of_mem hkv
        obtain ⟨k, w⟩ := kv
        simp at h1 ⊢
        omega
      Json.indOn kv.2 hs ho ha)
  | .arr xs => ha xs (fun x hx =>
      have : sizeOf x < 1 + sizeOf xs := by
        have h1 := List.sizeOf_lt_of_mem hx
        omega
      Json.indOn x hs ho ha)
termination_by sizeOf v

theorem pySum_eq (xs : List Json) (acc : List Json) :
    pySum xs acc =
      if xs.all Json.isArr then .ok (acc ++ (xs.map Json.elts).flatten)
      else .error .typeError := by
  induction xs generalizing acc with
  | nil => simp [pySum]
  | cons x xs ih =>
    cases x with
    | arr ys => simp [pySum, ih, Json.isArr, Json.elts, List.append_assoc]
    | scalar s => simp [pySum, Json.isArr]
    | obj kvs => simp [pySum, Json.isArr]

theorem flatten_elts_not_arr (v : Json) :
    ∀ x ∈ Token.flatten v, x.isArr = false := by
  induction v using Json.indOn with
  | hs s => simp [Token.flatten, Json.isArr]
  | ho kvs _ => simp [Token.flatten, Json.isArr]
  | ha xs ih =>
    rw [flatten_arr]
    intro x hx
    rw [List.mem_flatten] at hx
    obtain ⟨l, hl, hxl⟩ := hx
    rw [List.mem_map] at hl
    obtain ⟨y, hy, rfl⟩ := hl
    exact ih y hy x hxl

/-- C3: `FLATTEN` fully collapses sequence nesting.  `Token.flatten`
satisfies the reference recurrence — a non-sequence value becomes the
singleton list containing it, and a sequence becomes the concatenation
of the flattenings of its elements in order (hence the result lists the
original non-sequence leaves in depth-first document order) — and no
element of the result is itself a sequence. -/
theorem c3_flatten_collapse (v : Json) :
    (v.isArr = false → Token.flatten v = [v])
    ∧ (∀ xs, v = .arr xs → Token.flatten v = (xs.map Token.flatten).flatten)
    ∧ (∀ x ∈ Token.flatten v, x.isArr = false) := by
  refine ⟨fun h => flatten_not_arr h, fun xs hxs => ?_, flatten_elts_not_arr v⟩
  subst hxs
  exact flatten_arr xs

/-- C4: `UNPACK` on a sequence concatenates the two outermost layers
exactly when every immediate element is itself a sequence, and
otherwise returns the sequence unchanged (no partial unpacking, no
error). -/
theorem c4_unpack_merge (xs : List Json) :
    Token.unpack (.arr xs) =
      if xs.all Json.isArr then .arr ((xs.map Json.elts).flatten)
      else .arr xs := by
  simp only [Token.unpack, pySum_eq]
  cases hall : xs.all Json.isArr
  · simp only [hall, Bool.false_eq_true, if_false]
  · simp only [hall, if_true, List.nil_append]

/-- C9: `UNPACK` applied to any non-sequence value returns the value
itself unchanged, neither wrapping it in a sequence nor raising. -/
theorem c9_unpack_non_sequence (v : Json) (h : v.isArr = false) :
    Token.unpack v = v := by
  cases v with
  | arr xs => simp [Json.isArr] at h
  | scalar s => rfl
  | obj kvs => rfl

theorem c9_unpack_non_sequence_witness :
    Json.isArr (Json.scalar "x") = false
    ∧ Token.unpack (Json.scalar "x") = Json.scalar "x" :=
  ⟨rfl, c9_unpack_non_sequence (Json.scalar "x") rfl⟩

/-- C8: applying the empty specification to any document returns the
document unchanged. -/
theorem c8_empty_spec_identity (d : Json) : Specifier.apply [] d = .ok d := by
  simp [Specifier.apply]

/-- C10: indexing a mapping document with an integer key step raises a
lookup error (`KeyError`) that propagates; it never enters the
broadcast branch, which is reserved for `TypeError`. -/
theorem c10_int_key_on_mapping (kvs : List (String × Json)) (i : Int) (rest : List Step) :
    Specifier.apply (.key (.idx i) :: rest) (.obj kvs) = .error .keyError :=
  apply_key_lookupErr rest (by simp [getItem]) (by simp)

/-- C6: a type-compatible key whose lookup fails — an absent string key
on a mapping, or an out-of-range integer index on a sequence — makes
the interpreter return the lookup error itself: no broadcast, no
substitute result. -/
theorem c6_missing_key_fatal (s : String) (kvs : List (String × Json))
    (i : Int) (xs : List Json) (rest : List Step)
    (h1 : lookupKey s kvs = none) (h2 : pyIndex xs.length i = none) :
    Specifier.apply (.key (.name s) :: rest) (.obj kvs) = .error .keyError
    ∧ Specifier.apply (.key (.idx i) :: rest) (.arr xs) = .error .indexError := by
  constructor
  · exact apply_key_lookupErr rest (by simp [getItem, h1]) (by simp)
  · exact apply_key_lookupErr rest (by simp [getItem, pyListGet, h2]) (by simp)

theorem c6_missing_key_fatal_witness :
    (lookupKey "a" [("b", Json.scalar "y")] = none
      ∧ pyIndex [Json.scalar "z"].length 5 = none)
    ∧ (Specifier.apply [Step.key (Key.name "a")] (.obj [("b", Json.scalar "y")])
        = .error .keyError
      ∧ Specifier.apply [Step.key (Key.idx 5)] (.arr [Json.scalar "z"])
        = .error .indexError) :=
  ⟨⟨by simp [lookupKey], by decide⟩,
    c6_missing_key_fatal "a" [("b", Json.scalar "y")] 5 [Json.scalar "z"] []
      (by simp [lookupKey]) (by decide)⟩

/-- C1 (amended): for a specification headed by a STRING key applied to
a sequence, indexing the sequence by the string raises `TypeError`, so
the interpreter broadcasts: the result equals applying the entire
specification to each element in turn, the per-element results
collected into a sequence in order.  (The hypothesis that each element
supports the key is the claim's own premise; the broadcast happens for
every string key on a sequence.) -/
theorem c1_broadcast_string_key (s : String) (rest : List Step) (xs : List Json)
    (h : ∀ x ∈ xs, (getItem x (.name s)).isOk = true) :
    Specifier.apply (.key (.name s) :: rest) (.arr xs)
      = (applyList (.key (.name s) :: rest) xs).map Json.arr :=
  apply_key_typeError rest (by simp [getItem]) (by simp [pyIter])

theorem c1_broadcast_string_key_witness :
    (∀ x ∈ [Json.obj [("k", Json.scalar "x")], Json.obj [("k", Json.scalar "y")]],
      (getItem x (Key.name "k")).isOk = true)
    ∧ Specifier.apply [Step.key (Key.name "k")]
        (.arr [Json.obj [("k", Json.scalar "x")], Json.obj [("k", Json.scalar "y")]])
      = (applyList [Step.key (Key.name "k")]
          [Json.obj [("k", Json.scalar "x")], Json.obj [("k", Json.scalar "y")]]).map Json.arr :=
  ⟨by intro x hx; fin_cases hx <;> rfl,
    c1_broadcast_string_key "k" []
      [Json.obj [("k", Json.scalar "x")], Json.obj [("k", Json.scalar "y")]]
      (by intro x hx; fin_cases hx <;> rfl)⟩

/-- C1 counterexample: the broadcasting claim is false for integer
keys.  The sequence `[["a"], ["b"]]` has elements that each support
index 0, yet applying the specification `(0,)` to it indexes the outer
sequence directly, giving `["a"]`, not the element-wise sequence
`["a", "b"]`. -/
theorem c1_counterexample :
    (getItem (Json.arr [Json.scalar "a"]) (Key.idx 0)).isOk = true
    ∧ (getItem (Json.arr [Json.scalar "b"]) (Key.idx 0)).isOk = true
    ∧ Specifier.apply [Step.key (Key.idx 0)]
        (Json.arr [Json.arr [Json.scalar "a"], Json.arr [Json.scalar "b"]])
      = .ok (Json.arr [Json.scalar "a"])
    ∧ Specifier.apply [Step.key (Key.idx 0)] (Json.arr [Json.scalar "a"])
      = .ok (Json.scalar "a")
    ∧ Specifier.apply [Step.key (Key.idx 0)] (Json.arr [Json.scalar "b"])
      = .ok (Json.scalar "b")
    ∧ Json.arr [Json.scalar "a"] ≠ Json.arr [Json.scalar "a", Json.scalar "b"] := by
  refine ⟨rfl, rfl, ?_, ?_, ?_, by simp⟩
  · exact (apply_key_ok [] (by rfl)).trans (apply_nil _)
  · exact (apply_key_ok [] (by rfl)).trans (apply_nil _)
  · exact (apply_key_ok [] (by rfl)).trans (apply_nil _)

/-- The elements a value yields when iterated, or `[]` when iteration
raises.  Used to state lengths and products over selected cells. -/
def elemsD (v : Json) : List Json :=
  match pyIter v with
  | .ok l => l
  | .error _ => []

/-- Python `JsonProcessor.isiterable`: whether `iter(val)` succeeds. -/
def isiterable (v : Json) : Bool :=
  match pyIter v with
  | .ok _ => true
  | .error _ => false

/-- One position of the odometer state of `_curr_gen`: whether the mask
selects this position, the original cell value `val` (used to build a
fresh iterator on reset), the not-yet-consumed elements `rem` of the
current iterator at this position, and the value `cur` this position
currently contributes to yielded tuples.  For an unselected position
`rem` is unused and `cur` is `val` itself, copied verbatim. -/
structure Pos where
  sel : Bool
  val : Json
  rem : List Json
  cur : Json

/-- Result of one backward scan of the odometer: a digit advanced
(`found`, Python's `break`), every selected digit was exhausted and
reset (`done`, the loop's `else: break`), or a reset failed (`err`,
`next` on an empty fresh iterator, which surfaces as `RuntimeError`
under PEP 479). -/
inductive Scan where
  | found
  | done
  | err
deriving DecidableEq

/-- The backward scan of `_curr_gen`'s while-loop body: starting from
the rightmost position and moving left, skip unselected positions; at a
selected position take the next element of its iterator if one remains
(and stop the scan), otherwise reset the position to a fresh iterator
on its original value, consume that iterator's first element, and
continue leftward.  Returns the updated state and how the scan ended;
positions right of the advanced digit keep the resets performed during
the same scan. -/
def advance : List Pos → List Pos × Scan
  | [] => ([], .done)
  | q :: rest =>
    match advance rest with
    | (rest', .found) => (q :: rest', .found)
    | (rest', .err) => (q :: rest', .err)
    | (rest', .done) =>
      if q.sel then
        match q.rem with
        | x :: r => ({ q with cur := x, rem := r } :: rest', .found)
        | [] =>
          match pyIter q.val with
          | .ok (x :: r) => ({ q with cur := x, rem := r } :: rest', .done)
          | _ => (q :: rest', .err)
      else (q :: rest', .done)

/-- The tuple the odometer currently yields. -/
def currOf (st : List Pos) : List Json :=
  st.map (·.cur)

/-- Weight of a state: the product of the iteration lengths of the
selected positions (the full cycle count of the odometer). -/
def W : List Pos → Nat
  | [] => 1
  | q :: rest => (if q.sel then (elemsD q.val).length else 1) * W rest

/-- Remaining-step count of a state in mixed radix: how many further
tuples the odometer will yield after the current one. -/
def N : List Pos → Nat
  | [] => 0
  | q :: rest => (if q.sel then q.rem.length * W rest else 0) + N rest

/-- The yield loop of the generator `_curr_gen`: yield the current
tuple, advance, and repeat until the scan reports exhaustion (clean
stop) or an error (`RuntimeError` after the tuples yielded so far).
The loop is driven by explicit fuel; `N st + 1` is proven sufficient
below, so `curr_gen` never reaches the fuel-exhaustion branch. -/
def go : Nat → List Pos → List (List Json) × Option PyError
  | 0, _ => ([], some .runtimeError)
  | fuel + 1, st =>
    match advance st with
    | (st', .found) =>
      let out := go fuel st'
      (currOf st :: out.1, out.2)
    | (_, .done) => ([currOf st], none)
    | (_, .err) => ([currOf st], some .runtimeError)

/-- First comprehension of `_curr_gen`:
`iters = [iter(val) if pred else val for pred, val in zip(key, vals)]`.
For a selected position the iterator's elements (raising `TypeError`
if the value is not iterable); unselected positions store no iterator. -/
def initIter (pv : Bool × Json) : Except PyError (List Json) :=
  if pv.1 then pyIter pv.2 else .ok []

/-- Second comprehension of `_curr_gen`:
`curr = [next(it) if pred else it for pred, it in zip(key, iters)]`.
A selected position consumes the first element of its iterator
(`StopIteration` from an empty iterator becomes `RuntimeError` inside a
generator); an unselected position contributes its value verbatim. -/
def mkPos (pv : Bool × Json) (elems : List Json) : Except PyError Pos :=
  if pv.1 then
    match elems with
    | [] => .error .runtimeError
    | x :: r => .ok ⟨true, pv.2, r, x⟩
  else .ok ⟨false, pv.2, [], pv.2⟩

/-- The initial odometer state of `_curr_gen` on the zipped mask/value
pairs: all `iter()` calls run first, left to right, then all `next()`
calls, left to right, as in the two Python list comprehensions. -/
def initState (ps : List (Bool × Json)) : Except PyError (List Pos) := do
  let its ← ps.mapM initIter
  (ps.zip its).mapM fun q => mkPos q.1 q.2

/-- The generator `_curr_gen vals key` (with the key already forced to
a boolean tuple, as by `key = tuple(key)`): the list of tuples it
yields, paired with `some e` when it terminates by raising instead of
returning.  Python's `zip` truncates to the shorter of mask and row. -/
def curr_gen (vals : List Json) (mask : List Bool) : List (List Json) × Option PyError :=
  match initState (mask.zip vals) with
  | .error e => ([], some e)
  | .ok st => go (N st + 1) st

/-- The selector argument of `conditional_product`: Python's `None`
default, a callable predicate, an iterable boolean mask, or a value
that is neither callable nor iterable (for example a number). -/
inductive Selector where
  | noKey : Selector
  | pred : (Json → Bool) → Selector
  | mask : List Bool → Selector
  | atom : Selector

/-- `JsonProcessor.conditional_product`: the default key is the
`isiterable` predicate; a callable key is mapped over the values and
the function recurses with the resulting mask; an iterable key is
passed to `_curr_gen`; anything else raises `ValueError` immediately,
before the generator is created and before any cell is touched. -/
def conditional_product (vals : List Json) (key : Selector) :
    Except PyError (List (List Json) × Option PyError) :=
  match key with
  | .noKey => .ok (curr_gen vals (vals.map isiterable))
  | .pred f => .ok (curr_gen vals (vals.map f))
  | .mask m => .ok (curr_gen vals m)
  | .atom => .error .valueError

/-- The n-ary cartesian product of a list of axes, rightmost axis
varying fastest: the reference enumeration order for the expander. -/
def listProd : List (List Json) → List (List Json)
  | [] => [[]]
  | xs :: rest => xs.flatMap fun x => (listProd rest).map (x :: ·)

/-- Full product of the remaining state: what the odometer enumerates
from a freshly reset state onward. -/
def tailProd : List Pos → List (List Json)
  | [] => [[]]
  | q :: rest =>
    if q.sel then (elemsD q.val).flatMap fun x => (tailProd rest).map (x :: ·)
    else (tailProd rest).map (q.cur :: ·)

/-- Product of the state from its current position onward: the current
digit values followed by the full cycles of the remaining elements. -/
def curProd : List Pos → List (List Json)
  | [] => [[]]
  | q :: rest =>
    if q.sel then
      (curProd rest).map (q.cur :: ·) ++ q.rem.flatMap fun x => (tailProd rest).map (x :: ·)
    else (curProd rest).map (q.cur :: ·)

/-- A state is good when every selected position holds an iterable,
nonempty original value; initial states are good, and `advance`
preserves goodness. -/
def Good (st : List Pos) : Prop :=
  ∀ q ∈ st, q.sel = true → ∃ l, pyIter q.val = .ok l ∧ l ≠ []

theorem adv_W (st : List Pos) : W (advance st).1 = W st := by
  induction st with
  | nil => rfl
  | cons q rest ih =>
    rcases hadv : advance rest with ⟨rest', sc⟩
    rw [hadv] at ih
    cases sc with
    | found => simp [advance, hadv, W, ih]
    | err => simp [advance, hadv, W, ih]
    | done =>
      by_cases hsel : q.sel
      · cases hrem : q.rem with
        | cons x r => simp [advance, hadv, hsel, hrem, W, ih]
        | nil =>
          cases hit : pyIter q.val with
          | ok l =>
            cases l with
            | nil => simp [advance, hadv, hsel, hrem, hit, W, ih]
            | cons x r => simp [advance, hadv, hsel, hrem, hit, W, ih]
          | error e => simp [advance, hadv, hsel, hrem, hit, W, ih]
      · simp [advance, hadv, hsel, W, ih]

theorem adv_tailProd (st : List Pos) : tailProd (advance st).1 = tailProd st := by
  induction st with
  | nil => rfl
  | cons q rest ih =>
    rcases hadv : advance rest with ⟨rest', sc⟩
    rw [hadv] at ih
    cases sc with
    | found => simp [advance, hadv, tailProd, ih]
    | err => simp [advance, hadv, tailProd, ih]
    | done =>
      by_cases hsel : q.sel
      · cases hrem : q.rem with
        | cons x r => simp [advance, hadv, hsel, hrem, tailProd, ih]
        | nil =>
          cases hit : pyIter q.val with
          | ok l =>
            cases l with
            | nil => simp [advance, hadv, hsel, hrem, hit, tailProd, ih]
            | cons x r => simp [advance, hadv, hsel, hrem, hit, tailProd, ih]
          | error e => simp [advance, hadv, hsel, hrem, hit, tailProd, ih]
      · simp [advance, hadv, hsel, tailProd, ih]

theorem adv_good {st : List Pos} (h : Good st) : Good (advance st).1 := by
  induction st with
  | nil => exact h
  | cons q rest ih =>
    have hq : ∃ l, q.sel = true → pyIter q.val = .ok l ∧ l ≠ [] := by
      by_cases hsel : q.sel
      · obtain ⟨l, hl⟩ := h q (by simp) hsel
        exact ⟨l, fun _ => hl⟩
      · exact ⟨[], fun hs => absurd hs hsel⟩
    have hrest : Good rest := fun p hp hps => h p (by simp [hp]) hps
    have ihr := ih hrest
    rcases hadv : advance rest with ⟨rest', sc⟩
    rw [hadv] at ihr
    have hkeep : ∀ x r, Good ({ q with cur := x, rem := r } :: rest') := by
      intro x r p hp hps
      rcases List.mem_cons.mp hp with hp | hp
      · subst hp
        exact h q (by simp) hps
      · exact ihr p hp hps
    have hkeep2 : Good (q :: rest') := by
      intro p hp hps
      rcases List.mem_cons.mp hp with hp | hp
      · subst hp
        exact h p (by simp [hp]) hps
      · exact ihr p hp hps
    cases sc with
    | found => simpa [advance, hadv] using hkeep2
    | err => simpa [advance, hadv] using hkeep2
    | done =>
      by_cases hsel : q.sel
      · cases hrem : q.rem with
        | cons x r => simpa [advance, hadv, hsel, hrem] using hkeep x r
        | nil =>
          cases hit : pyIter q.val with
          | ok l =>
            cases l with
            | nil => simpa [advance, hadv, hsel, hrem, hit] using hkeep2
            | cons x r => simpa [advance, hadv, hsel, hrem, hit] using hkeep x r
          | error e => simpa [advance, hadv, hsel, hrem, hit] using hkeep2
      · simpa [advance, hadv, hsel] using hkeep2

theorem adv_done_rem {st st' : List Pos} (h : advance st = (st', .done)) :
    ∀ q ∈ st, q.sel = true → q.rem = [] := by
  induction st generalizing st' with
  | nil => simp
  | cons q rest ih =>
    rcases hadv : advance rest with ⟨rest', sc⟩
    cases sc with
    | found => simp [advance, hadv] at h
    | err => simp [advance, hadv] at h
    | done =>
      intro p hp hps
      rcases List.mem_cons.mp hp with hpq | hp
      · subst hpq
        by_cases hsel : p.sel
        · cases hrem : p.rem with
          | cons x r => simp [advance, hadv, hsel, hrem] at h
          | nil => rfl
        · exact absurd hps hsel
      · exact ih hadv p hp hps

theorem N_of_rem_nil {st : List Pos} (h : ∀ q ∈ st, q.sel = true → q.rem = []) :
    N st = 0 := by
  induction st with
  | nil => rfl
  | cons q rest ih =>
    have hrest := ih fun p hp hps => h p (by simp [hp]) hps
    by_cases hsel : q.sel
    · have : q.rem = [] := h q (by simp) hsel
      simp [N, hsel, this, hrest]
    · simp [N, hsel, hrest]

theorem curProd_of_rem_nil {st : List Pos} (h : ∀ q ∈ st, q.sel = true → q.rem = []) :
    curProd st = [currOf st] := by
  induction st with
  | nil => rfl
  | cons q rest ih =>
    have hrest := ih fun p hp hps => h p (by simp [hp]) hps
    by_cases hsel : q.sel
    · have : q.rem = [] := h q (by simp) hsel
      simp [curProd, hsel, this, hrest, currOf]
    · simp [curProd, hsel, hrest, currOf]

theorem adv_no_err {st : List Pos} (hg : Good st) : (advance st).2 ≠ .err := by
  induction st with
  | nil => simp [advance]
  | cons q rest ih =>
    have hrest : Good rest := fun p hp hps => hg p (by simp [hp]) hps
    have ihr := ih hrest
    rcases hadv : advance rest with ⟨rest', sc⟩
    rw [hadv] at ihr
    cases sc with
    | found => simp [advance, hadv]
    | err => simp at ihr
    | done =>
      by_cases hsel : q.sel
      · cases hrem : q.rem with
        | cons x r => simp [advance, hadv, hsel, hrem]
        | nil =>
          obtain ⟨l, hl, hlne⟩ := hg q (by simp) hsel
          cases l with
          | nil => exact absurd rfl hlne
          | cons x r => simp [advance, hadv, hsel, hrem, hl]
      · simp [advance, hadv, hsel]

theorem adv_done_N {st st' : List Pos} (h : advance st = (st', .done)) (hg : Good st) :
    N st' + 1 = W st := by
  induction st generalizing st' with
  | nil =>
    simp only [advance, Prod.mk.injEq] at h
    obtain ⟨h1, -⟩ := h
    subst h1
    simp [N, W]
  | cons q rest ih =>
    have hrest : Good rest := fun p hp hps => hg p (by simp [hp]) hps
    rcases hadv : advance rest with ⟨rest', sc⟩
    cases sc with
    | found => simp [advance, hadv] at h
    | err => simp [advance, hadv] at h
    | done =>
      have ihr := ih hadv hrest
      have hWr : W rest' = W rest := by
        have := adv_W rest
        rw [hadv] at this
        exact this
      by_cases hsel : q.sel
      · cases hrem : q.rem with
        | cons x r => simp [advance, hadv, hsel, hrem] at h
        | nil =>
          obtain ⟨l, hl, hlne⟩ := hg q (by simp) hsel
          cases l with
          | nil => exact absurd rfl hlne
          | cons x r =>
            simp only [advance, hadv, hsel, if_true, hrem, hl] at h
            cases h
            simp only [N, W, hsel, if_true, hWr, elemsD, hl, List.length_cons]
            rw [← ihr]
            ring
      · simp only [advance, hadv, hsel, if_false, Bool.false_eq_true] at h
        cases h
        simp [N, W, hsel, ihr, hWr]

theorem adv_found_N {st st' : List Pos} (h : advance st = (st', .found)) (hg : Good st) :
    N st' + 1 ≤ N st := by
  induction st generalizing st' with
  | nil => simp [advance] at h
  | cons q rest ih =>
    have hrest : Good rest := fun p hp hps => hg p (by simp [hp]) hps
    rcases hadv : advance rest with ⟨rest', sc⟩
    cases sc with
    | err => simp [advance, hadv] at h
    | found =>
      simp only [advance, hadv] at h
      cases h
      have ihr := ih hadv hrest
      have hWr : W rest' = W rest := by
        have := adv_W rest
        rw [hadv] at this
        exact this
      simp only [N, hWr]
      by_cases hsel : q.sel
      · simp [hsel]
        omega
      · simp [hsel]
        omega
    | done =>
      have hNr : N rest = 0 := N_of_rem_nil (adv_done_rem hadv)
      have ihr := adv_done_N hadv hrest
      have hWr : W rest' = W rest := by
        have := adv_W rest
        rw [hadv] at this
        exact this
      by_cases hsel : q.sel
      · cases hrem : q.rem with
        | nil =>
          cases hit : pyIter q.val with
          | ok l =>
            cases l with
            | nil => simp [advance, hadv, hsel, hrem, hit] at h
            | cons x r => simp [advance, hadv, hsel, hrem, hit] at h
          | error e => simp [advance, hadv, hsel, hrem, hit] at h
        | cons x r =>
          simp only [advance, hadv, hsel, if_true, hrem] at h
          cases h
          simp only [N, hsel, if_true, hrem, hWr, hNr, List.length_cons, Nat.add_mul,
            Nat.one_mul]
          have : N rest' + 1 = W rest := ihr
          omega
      · simp [advance, hadv, hsel] at h

theorem adv_done_curProd {st st' : List Pos} (h : advance st = (st', .done))
    (hg : Good st) : curProd st' = tailProd st := by
  induction st generalizing st' with
  | nil =>
    simp only [advance, Prod.mk.injEq] at h
    obtain ⟨h1, -⟩ := h
    subst h1
    rfl
  | cons q rest ih =>
    have hrest : Good rest := fun p hp hps => hg p (by simp [hp]) hps
    rcases hadv : advance rest with ⟨rest', sc⟩
    cases sc with
    | found => simp [advance, hadv] at h
    | err => simp [advance, hadv] at h
    | done =>
      have ihr := ih hadv hrest
      have htp : tailProd rest' = tailProd rest := by
        have := adv_tailProd rest
        rw [hadv] at this
        exact this
      by_cases hsel : q.sel
      · cases hrem : q.rem with
        | cons x r => simp [advance, hadv, hsel, hrem] at h
        | nil =>
          obtain ⟨l, hl, hlne⟩ := hg q (by simp) hsel
          cases l with
          | nil => exact absurd rfl hlne
          | cons x r =>
            simp only [advance, hadv, hsel, if_true, hrem, hl] at h
            cases h
            simp [curProd, tailProd, hsel, ihr, htp, elemsD, hl]
      · simp only [advance, hadv, hsel, if_false, Bool.false_eq_true] at h
        cases h
        simp [curProd, tailProd, hsel, ihr, htp]

theorem adv_found_curProd {st st' : List Pos} (h : advance st = (st', .found))
    (hg : Good st) : curProd st = currOf st :: curProd st' := by
  induction st generalizing st' with
  | nil => simp [advance] at h
  | cons q rest ih =>
    have hrest : Good rest := fun p hp hps => hg p (by simp [hp]) hps
    rcases hadv : advance rest with ⟨rest', sc⟩
    cases sc with
    | err => simp [advance, hadv] at h
    | found =>
      simp only [advance, hadv] at h
      cases h
      have ihr := ih hadv hrest
      have htp : tailProd rest' = tailProd rest := by
        have := adv_tailProd rest
        rw [hadv] at this
        exact this
      by_cases hsel : q.sel
      · simp [curProd, hsel, ihr, htp, currOf]
      · simp [curProd, hsel, ihr, currOf]
    | done =>
      have hcr : curProd rest = [currOf rest] := curProd_of_rem_nil (adv_done_rem hadv)
      have ihr := adv_done_curProd hadv hrest
      have htp : tailProd rest' = tailProd rest := by
        have := adv_tailProd rest
        rw [hadv] at this
        exact this
      by_cases hsel : q.sel
      · cases hrem : q.rem with
        | nil =>
          cases hit : pyIter q.val with
          | ok l =>
            cases l with
            | nil => simp [advance, hadv, hsel, hrem, hit] at h
            | cons x r => simp [advance, hadv, hsel, hrem, hit] at h
          | error e => simp [advance, hadv, hsel, hrem, hit] at h
        | cons x r =>
          simp only [advance, hadv, hsel, if_true, hrem] at h
          cases h
          simp [curProd, hsel, hrem, hcr, ihr, htp, currOf]
      · simp [advance, hadv, hsel] at h

theorem go_eq {st : List Pos} {fuel : Nat} (hg : Good st) (hf : N st < fuel) :
    go fuel st = (curProd st, none) := by
  induction fuel generalizing st with
  | zero => omega
  | succ fuel ih =>
    rcases hadv : advance st with ⟨st', sc⟩
    cases sc with
    | done =>
      rw [show go (fuel + 1) st = ([currOf st], none) by simp [go, hadv]]
      rw [curProd_of_rem_nil (adv_done_rem hadv)]
    | err =>
      have := adv_no_err hg
      rw [hadv] at this
      simp at this
    | found =>
      have hg' : Good st' := by
        have := adv_good hg
        rwa [hadv] at this
      have hlt : N st' + 1 ≤ N st := adv_found_N hadv hg
      have ihr := ih hg' (by omega)
      rw [show go (fuel + 1) st = (currOf st :: (go fuel st').1, (go fuel st').2) by
        simp [go, hadv]]
      rw [ihr, adv_found_curProd hadv hg]

/-- The per-position contribution of a mask/value pair to the product:
a selected cell contributes its elements, an unselected cell just
itself. -/
def axisOf (pv : Bool × Json) : List Json :=
  if pv.1 then elemsD pv.2 else [pv.2]

theorem initState_ok {ps : List (Bool × Json)}
    (hok : ∀ pv ∈ ps, pv.1 = true → ∃ l, pyIter pv.2 = .ok l ∧ l ≠ []) :
    ∃ st, initState ps = .ok st ∧ Good st ∧ curProd st = tailProd st
      ∧ (st.map fun q => if q.sel then elemsD q.val else [q.cur]) = ps.map axisOf
      ∧ tailProd st = listProd (ps.map axisOf) := by
  induction ps with
  | nil => exact ⟨[], rfl, by simp [Good], rfl, rfl, rfl⟩
  | cons pv ps ih =>
    obtain ⟨st', hinit, hgood, hcur, haxes, hprod⟩ :=
      ih fun p hp hps => hok p (by simp [hp]) hps
    obtain ⟨ls, hls, hzip⟩ : ∃ ls, ps.mapM initIter = .ok ls
        ∧ ((ps.zip ls).mapM fun q => mkPos q.1 q.2) = .ok st' := by
      unfold initState at hinit
      cases hml : ps.mapM initIter with
      | error e => rw [hml] at hinit; simp [Bind.bind, Except.bind] at hinit
      | ok ls =>
        rw [hml] at hinit
        simp only [Bind.bind, Except.bind] at hinit
        exact ⟨ls, rfl, hinit⟩
    have htp : ∀ q : Pos, tailProd (q :: st')
        = (if q.sel then elemsD q.val else [q.cur]).flatMap
            fun x => (tailProd st').map (x :: ·) := by
      intro q
      by_cases hsel : q.sel <;> simp [tailProd, hsel]
    by_cases hsel : pv.1
    · obtain ⟨l, hl, hlne⟩ := hok pv (by simp) hsel
      cases l with
      | nil => exact absurd rfl hlne
      | cons x r =>
        refine ⟨⟨true, pv.2, r, x⟩ :: st', ?_, ?_, ?_, ?_, ?_⟩
        · unfold initState
          rw [List.mapM_cons, show initIter pv = .ok (x :: r) by
              simp [initIter, hsel, hl], hls]
          simp only [Bind.bind, Except.bind, pure, Except.pure, List.zip_cons_cons,
            List.mapM_cons]
          rw [show mkPos pv (x :: r) = .ok ⟨true, pv.2, r, x⟩ by simp [mkPos, hsel]]
          rw [hzip]
        · intro p hp hps
          rcases List.mem_cons.mp hp with hp | hp
          · subst hp
            exact ⟨x :: r, hl, hlne⟩
          · exact hgood p hp hps
        · simp only [curProd, htp, hcur, elemsD, hl]
          simp [List.flatMap_cons]
        · simp only [List.map_cons, haxes]
          congr 1
          simp [axisOf, hsel, elemsD, hl]
        · rw [htp, hprod]
          simp only [List.map_cons, listProd, axisOf, hsel, if_true, elemsD, hl]
    · refine ⟨⟨false, pv.2, [], pv.2⟩ :: st', ?_, ?_, ?_, ?_, ?_⟩
      · unfold initState
        rw [List.mapM_cons, show initIter pv = .ok [] by simp [initIter, hsel], hls]
        simp only [Bind.bind, Except.bind, pure, Except.pure, List.zip_cons_cons,
          List.mapM_cons]
        rw [show mkPos pv [] = .ok ⟨false, pv.2, [], pv.2⟩ by simp [mkPos, hsel]]
        rw [hzip]
      · intro p hp hps
        rcases List.mem_cons.mp hp with hp | hp
        · subst hp
          simp at hps
        · exact hgood p hp hps
      · simp [curProd, tailProd, hcur]
      · simp only [List.map_cons, haxes, axisOf]
        simp [hsel]
      · rw [htp, hprod]
        simp only [List.map_cons, listProd, axisOf]
        simp [hsel]

/-- Main characterization of the generator: when every selected cell is
iterable and nonempty, `_curr_gen` yields exactly the cartesian product
of the selected cells' elements (unselected cells held fixed), with the
last selected position varying fastest, and terminates cleanly. -/
theorem curr_gen_eq {vals : List Json} {mask : List Bool}
    (hok : ∀ pv ∈ mask.zip vals, pv.1 = true → ∃ l, pyIter pv.2 = .ok l ∧ l ≠ []) :
    curr_gen vals mask = (listProd ((mask.zip vals).map axisOf), none) := by
  obtain ⟨st, hinit, hgood, hcur, haxes, hprod⟩ := initState_ok hok
  rw [show curr_gen vals mask = go (N st + 1) st by simp [curr_gen, hinit]]
  rw [go_eq hgood (by omega), hcur, hprod]

theorem mapM_initIter_ok {ps : List (Bool × Json)}
    (hit : ∀ pv ∈ ps, pv.1 = true → (pyIter pv.2).isOk = true) :
    ∃ ls, ps.mapM initIter = .ok ls := by
  induction ps with
  | nil => exact ⟨[], rfl⟩
  | cons pv ps ih =>
    obtain ⟨ls, hls⟩ := ih fun p hp hps => hit p (by simp [hp]) hps
    have : ∃ l, initIter pv = .ok l := by
      by_cases hsel : pv.1
      · have := hit pv (by simp) hsel
        cases hp : pyIter pv.2 with
        | ok l => exact ⟨l, by simp [initIter, hsel, hp]⟩
        | error e => rw [hp] at this; simp [Except.isOk, Except.toBool] at this
      · exact ⟨[], by simp [initIter, hsel]⟩
    obtain ⟨l, hl⟩ := this
    refine ⟨l :: ls, ?_⟩
    rw [List.mapM_cons, hl, hls]
    rfl

theorem initState_err {ps : List (Bool × Json)}
    (hit : ∀ pv ∈ ps, pv.1 = true → (pyIter pv.2).isOk = true)
    (hempty : ∃ pv ∈ ps, pv.1 = true ∧ elemsD pv.2 = []) :
    ∃ e, initState ps = .error e := by
  induction ps with
  | nil => simp at hempty
  | cons pv ps ih =>
    obtain ⟨ls, hls⟩ :=
      mapM_initIter_ok fun p hp hps => hit p (List.mem_cons_of_mem pv hp) hps
    have hinit : ∃ l, initIter pv = .ok l ∧ (pv.1 = true → elemsD pv.2 = l) := by
      by_cases hsel : pv.1
      · have := hit pv (by simp) hsel
        cases hp : pyIter pv.2 with
        | ok l =>
          exact ⟨l, by simp [initIter, hsel, hp], fun _ => by simp [elemsD, hp]⟩
        | error e => rw [hp] at this; simp [Except.isOk, Except.toBool] at this
      · exact ⟨[], by simp [initIter, hsel], fun hs => absurd hs hsel⟩
    obtain ⟨l, hl, hlsel⟩ := hinit
    have hstep : initState (pv :: ps)
        = ((pv, l) :: ps.zip ls).mapM fun q => mkPos q.1 q.2 := by
      unfold initState
      rw [List.mapM_cons, hl, hls]
      rfl
    obtain ⟨p0, hp0mem, hp0sel, hp0empty⟩ := hempty
    rcases List.mem_cons.mp hp0mem with hhd | htl
    · subst hhd
      have hleq : l = [] := by rw [← hlsel hp0sel, hp0empty]
      refine ⟨.runtimeError, ?_⟩
      rw [hstep, hleq, List.mapM_cons,
        show mkPos p0 [] = .error .runtimeError by simp [mkPos, hp0sel]]
      rfl
    · obtain ⟨e, he⟩ := ih (fun p hp hps => hit p (by simp [hp]) hps)
        ⟨p0, htl, hp0sel, hp0empty⟩
      have hzipErr : ((ps.zip ls).mapM fun q => mkPos q.1 q.2) = .error e := by
        unfold initState at he
        rw [hls] at he
        simpa [Bind.bind, Except.bind] using he
      cases hm : mkPos pv l with
      | error e2 =>
        refine ⟨e2, ?_⟩
        rw [hstep, List.mapM_cons, hm]
        rfl
      | ok q =>
        refine ⟨e, ?_⟩
        rw [hstep, List.mapM_cons, hm]
        simp only [Bind.bind, Except.bind, hzipErr]

theorem flatMap_map_length (xs : List Json) (t : List (List Json)) :
    (xs.flatMap fun x => t.map (x :: ·)).length = xs.length * t.length := by
  induction xs with
  | nil => simp
  | cons x xs ihx =>
    simp [List.flatMap_cons, ihx]
    ring

theorem listProd_length (ls : List (List Json)) :
    (listProd ls).length = (ls.map List.length).prod := by
  induction ls with
  | nil => rfl
  | cons xs ls ih =>
    simp only [listProd, List.map_cons, List.prod_cons, flatMap_map_length, ih]

theorem listProd_singletons (l : List Json) :
    listProd (l.map fun v => [v]) = [l] := by
  induction l with
  | nil => rfl
  | cons x l ih => simp [listProd, ih]

theorem listProd_mem_spec {ls : List (List Json)} {r : List Json}
    (hr : r ∈ listProd ls) :
    r.length = ls.length
      ∧ ∀ (i : Nat) (x : Json), ls[i]? = some [x] → r[i]? = some x := by
  induction ls generalizing r with
  | nil =>
    simp [listProd] at hr
    subst hr
    simp
  | cons xs ls ih =>
    simp only [listProd, List.mem_flatMap, List.mem_map] at hr
    obtain ⟨x, hx, t, ht, rfl⟩ := hr
    obtain ⟨hlen, hfix⟩ := ih ht
    refine ⟨by simp [hlen], fun i y hy => ?_⟩
    cases i with
    | zero =>
      simp at hy
      subst hy
      simp at hx
      simp [hx]
    | succ i =>
      simp at hy ⊢
      exact hfix i y hy

/-- C2: cardinality of the selective cartesian expansion.  With every
mask-selected cell iterable, the generator yields exactly the product
of the selected cells' lengths; with no cell selected it yields the
original row exactly once and terminates; and as soon as some selected
cell is empty it yields no row at all. -/
theorem c2_expansion_cardinality (vals : List Json) (mask : List Bool)
    (hlen : mask.length = vals.length)
    (hsel : ∀ pv ∈ mask.zip vals, pv.1 = true → (pyIter pv.2).isOk = true) :
    ((curr_gen vals mask).1.length
      = ((mask.zip vals).map fun pv => if pv.1 then (elemsD pv.2).length else 1).prod)
    ∧ ((∀ pv ∈ mask.zip vals, pv.1 = false) → curr_gen vals mask = ([vals], none))
    ∧ ((∃ pv ∈ mask.zip vals, pv.1 = true ∧ elemsD pv.2 = [])
        → (curr_gen vals mask).1 = []) := by
  have herr : (∃ pv ∈ mask.zip vals, pv.1 = true ∧ elemsD pv.2 = [])
      → (curr_gen vals mask).1 = [] := by
    intro hempty
    obtain ⟨e, he⟩ := initState_err hsel hempty
    simp [curr_gen, he]
  refine ⟨?_, ?_, herr⟩
  · by_cases hE : ∃ pv ∈ mask.zip vals, pv.1 = true ∧ elemsD pv.2 = []
    · rw [herr hE]
      obtain ⟨pv, hpv, hpsel, hpempty⟩ := hE
      have h0 : (0 : Nat) ∈ (mask.zip vals).map
          fun pv => if pv.1 then (elemsD pv.2).length else 1 := by
        rw [List.mem_map]
        exact ⟨pv, hpv, by simp [hpsel, hpempty]⟩
      rw [List.prod_eq_zero h0]
      rfl
    · push_neg at hE
      have hok : ∀ pv ∈ mask.zip vals, pv.1 = true
          → ∃ l, pyIter pv.2 = .ok l ∧ l ≠ [] := by
        intro pv hpv hpsel
        have h1 := hsel pv hpv hpsel
        cases hp : pyIter pv.2 with
        | error e => rw [hp] at h1; simp [Except.isOk, Except.toBool] at h1
        | ok l =>
          refine ⟨l, rfl, fun hnil => ?_⟩
          exact hE pv hpv hpsel (by simp [elemsD, hp, hnil])
      rw [curr_gen_eq hok, listProd_length, List.map_map]
      congr 1
      refine List.map_congr_left fun pv hpv => ?_
      by_cases hpsel : pv.1 <;> simp [Function.comp, axisOf, hpsel]
  · intro hall
    have hok : ∀ pv ∈ mask.zip vals, pv.1 = true
        → ∃ l, pyIter pv.2 = .ok l ∧ l ≠ [] := by
      intro pv hpv hpsel
      rw [hall pv hpv] at hpsel
      cases hpsel
    rw [curr_gen_eq hok]
    have haxes : (mask.zip vals).map axisOf
        = ((mask.zip vals).map Prod.snd).map fun v => [v] := by
      rw [List.map_map]
      refine List.map_congr_left fun pv hpv => ?_
      simp [Function.comp, axisOf, hall pv hpv]
    rw [haxes, listProd_singletons, List.map_snd_zip mask vals (by omega)]

theorem c2_expansion_cardinality_witness :
    ([true, false].length = [Json.arr [Json.scalar "1", Json.scalar "2"],
        Json.scalar "c"].length
      ∧ ∀ pv ∈ [true, false].zip [Json.arr [Json.scalar "1", Json.scalar "2"],
          Json.scalar "c"], pv.1 = true → (pyIter pv.2).isOk = true)
    ∧ (curr_gen [Json.arr [Json.scalar "1", Json.scalar "2"], Json.scalar "c"]
        [true, false]).1.length
      = (([true, false].zip [Json.arr [Json.scalar "1", Json.scalar "2"],
          Json.scalar "c"]).map
            fun pv => if pv.1 then (elemsD pv.2).length else 1).prod :=
  ⟨⟨by decide, by decide⟩,
    (c2_expansion_cardinality
      [Json.arr [Json.scalar "1", Json.scalar "2"], Json.scalar "c"] [true, false]
      (by decide) (by decide)).1⟩

/-- C5: enumeration order and verbatim unselected cells.  Under the
preconditions of a well-formed expansion (selected cells iterable and
nonempty), the generator's output is exactly the n-ary cartesian
product of the selected axes with the last selected position varying
fastest (`listProd` recurses so that the head axis is the most
significant digit), and every yielded tuple has the row's length and
carries each unselected cell's original value in its original
position. -/
theorem c5_expansion_order (vals : List Json) (mask : List Bool)
    (hlen : mask.length = vals.length)
    (hne : ∀ pv ∈ mask.zip vals, pv.1 = true
      → (pyIter pv.2).isOk = true ∧ (elemsD pv.2).isEmpty = false) :
    curr_gen vals mask = (listProd ((mask.zip vals).map axisOf), none)
    ∧ ∀ r ∈ (curr_gen vals mask).1, r.length = vals.length
      ∧ ∀ i, i < vals.length → mask[i]? = some false → r[i]? = vals[i]? := by
  have hok : ∀ pv ∈ mask.zip vals, pv.1 = true
      → ∃ l, pyIter pv.2 = .ok l ∧ l ≠ [] := by
    intro pv hpv hpsel
    obtain ⟨h1, h2⟩ := hne pv hpv hpsel
    cases hp : pyIter pv.2 with
    | error e => rw [hp] at h1; simp [Except.isOk, Except.toBool] at h1
    | ok l =>
      refine ⟨l, rfl, fun hnil => ?_⟩
      rw [show elemsD pv.2 = l by simp [elemsD, hp], hnil] at h2
      simp at h2
  have hmain := curr_gen_eq hok
  refine ⟨hmain, fun r hr => ?_⟩
  rw [hmain] at hr
  obtain ⟨hrlen, hfix⟩ := listProd_mem_spec hr
  constructor
  · rw [hrlen, List.length_map, List.length_zip]
    omega
  · intro i hi hmi
    have hvi : vals[i]? = some vals[i] := by
      rw [List.getElem?_eq_some]
      exact ⟨hi, rfl⟩
    have hzi : (mask.zip vals)[i]? = some (false, vals[i]) :=
      List.getElem?_zip_eq_some.mpr ⟨hmi, hvi⟩
    have haxi : ((mask.zip vals).map axisOf)[i]? = some [vals[i]] := by
      rw [List.getElem?_map, hzi]
      simp [axisOf]
    rw [hfix i vals[i] haxi, hvi]

theorem c5_expansion_order_witness :
    ([true, true].length = [Json.arr [Json.scalar "1", Json.scalar "2"],
        Json.arr [Json.scalar "3"]].length
      ∧ ∀ pv ∈ [true, true].zip [Json.arr [Json.scalar "1", Json.scalar "2"],
          Json.arr [Json.scalar "3"]], pv.1 = true
        → (pyIter pv.2).isOk = true ∧ (elemsD pv.2).isEmpty = false)
    ∧ curr_gen [Json.arr [Json.scalar "1", Json.scalar "2"],
        Json.arr [Json.scalar "3"]] [true, true]
      = (listProd (([true, true].zip [Json.arr [Json.scalar "1", Json.scalar "2"],
          Json.arr [Json.scalar "3"]]).map axisOf), none) :=
  ⟨⟨by decide, by decide⟩,
    (c5_expansion_order
      [Json.arr [Json.scalar "1", Json.scalar "2"], Json.arr [Json.scalar "3"]]
      [true, true] (by decide) (by decide)).1⟩

/-- C7: an expansion selector that is neither a callable predicate nor
an iterable mask makes `conditional_product` raise `ValueError` at the
call itself, for every row whatsoever — before the generator is
constructed, so before any tuple is yielded and before any cell is
iterated. -/
theorem c7_invalid_selector (vals : List Json) :
    conditional_product vals Selector.atom = .error .valueError := rfl
